import Mathlib

/-!
Verification of the Audio-Captioned Automated Transcription Video Generation
Suite (a Python repository).  The definitions below are a shallow embedding of
the parts of the source that the checked properties talk about:

* the caption line-packing loop of `VideoCreatorHelper.GenerateVideo`
  (src/VideoCreatorHelper.py, lines 263-305);
* the glyph-width table builder `FFMPEGHelper.GetCharactersWidth`
  (src/FFMPEGHelper.py, lines 944-991) and the phrase-width computation of
  `FFMPEGHelper.AddCaptionsToVideo` (src/FFMPEGHelper.py, lines 1100-1145);
* the background-video counting, listing and replenishment logic of
  `VideoCreatorHelper.GenerateVideo` (lines 338-363) and
  `VideoCreatorHelper.GetCurrentVideosList` (lines 87-114);
* the job-status bookkeeping of `WebHelpers.JobStatusHistory`,
  the scheduler loop `QueueWatcher.run` (src/WebHelpers.py, lines 71-99)
  together with `ProcessJob` (src/Server.py, lines 28-93),
  `UpdateJobStatus` (src/Server.py, lines 97-117) and the startup recovery
  block (src/Server.py, lines 501-523);
* the job-id computation of `postJob` (src/Server.py, lines 300-306) and
  `PostJob` (src/apiRoutes.py, lines 136-138).

Modelling conventions: Python floats (durations, pixel widths) are embedded
as rationals; Python dicts keyed by strings are embedded as association
lists with first-occurrence lookup and in-place first-occurrence update,
which matches dict semantics because dict keys are unique and insertion
order is preserved; job statuses are the literal Python strings; the
filesystem of per-job metadata files is an association list from job id to
the decoded JSON record; external collaborators (the PIL text measurement,
the md5 digest, the directory listing and ffprobe durations) enter as
explicit function parameters.  Python str.upper is embedded as
Char.toUpper mapped over the string; the two agree on every character the
theorems below evaluate (ASCII characters and characters that are not
lowercase letters).
-/

namespace VideoSuite

/-- One word-level caption entry, an element of the captionWords list built in
GenerateVideo (lines 217-223): the stripped word together with its shifted
start and end times.  The Python key "end" is spelled stop here because end is
a Lean keyword. -/
structure CaptionWord where
  word : String
  start : ℚ
  stop : ℚ
deriving DecidableEq, Repr

/-- One packed caption line, an element of captionsList (lines 292-295 and
301-304): the joined text and the consecutive word entries of the line. -/
structure CaptionLine where
  text : String
  words : List CaptionWord
deriving DecidableEq, Repr

/-- Lookup in the glyph-width table, embedding the Python expression
charactersWidth.get(char, 0) of line 272: the value stored for the character,
zero when the character has no entry. -/
def lookupWidth (tbl : List (Char × ℚ)) (c : Char) : ℚ :=
  match tbl.find? (fun p => p.1 == c) with
  | some p => p.2
  | none => 0

/-- Width of one word as measured on lines 271-272 of GenerateVideo: the word
is uppercased (Python str.upper, acting character by character), then the
glyph widths of its characters are summed, each missing character counting
as zero. -/
def wordWidthOf (tbl : List (Char × ℚ)) (w : String) : ℚ :=
  (w.toList.map (fun c => lookupWidth tbl c.toUpper)).sum

/-- The inner while loop of the packer (lines 270-285).  Walking the remaining
words with the running width currentWidth, it takes words while they fit,
and stops either on a word whose own width exceeds the budget or on a word
that no longer fits on the line.  It returns the words taken for the current
line, the remaining words, and the final value of the Python variable
wordWidth (the width of the last word examined), which the outer loop
inspects to detect the single-oversized-word case. -/
def fitWords (tbl : List (Char × ℚ)) (budget : ℚ) :
    List CaptionWord → ℚ → ℚ → List CaptionWord × List CaptionWord × ℚ
  | [], _, lastW => ([], [], lastW)
  | w :: ws, currentWidth, _ =>
    let wordWidth := wordWidthOf tbl w.word
    if budget < wordWidth then
      ([], w :: ws, wordWidth)
    else if currentWidth + wordWidth ≤ budget then
      let r := fitWords tbl budget ws (currentWidth + wordWidth) wordWidth
      (w :: r.1, r.2.1, r.2.2)
    else
      ([], w :: ws, wordWidth)

/-- The caption text of a line, embedding line 291: the space-join of the
original (not uppercased) words. -/
def lineText (ws : List CaptionWord) : String :=
  String.intercalate " " (ws.map (fun w => w.word))

/-- The outer while loop of the packer (lines 267-305), driven by fuel.  Each
iteration runs the inner loop from the current position, appends the packed
line, and, when the inner loop stopped on a word wider than the whole budget,
additionally appends that word alone as its own line.  The fuel only has to
dominate the number of outer iterations; PackCaptionWords passes the word
count, which suffices because every iteration consumes at least one word
(lemma packLoop_join below).  The branch returning a single line with the
rest empty is unreachable (lemma fitWords_oversized below) and mirrors the
fact that the Python indexing captionWords[counter] is always in range. -/
def packLoop (tbl : List (Char × ℚ)) (budget : ℚ) :
    Nat → List CaptionWord → List CaptionLine
  | 0, _ => []
  | _, [] => []
  | fuel + 1, w :: ws =>
    let r := fitWords tbl budget (w :: ws) 0 0
    let line : CaptionLine := ⟨lineText r.1, r.1⟩
    if budget < r.2.2 then
      match r.2.1 with
      | [] => [line]
      | o :: rest2 => line :: ⟨o.word, [o]⟩ :: packLoop tbl budget fuel rest2
    else
      line :: packLoop tbl budget fuel r.2.1

/-- The caption line-packing of GenerateVideo, lines 263-305: pack the flat
word-timing list into caption lines under the reserved-width budget. -/
def PackCaptionWords (tbl : List (Char × ℚ)) (budget : ℚ)
    (words : List CaptionWord) : List CaptionLine :=
  packLoop tbl budget words.length words

/-- Concatenation of the word lists of a list of caption lines, the quantity
claim C1 is about. -/
def wordsOfLines (lines : List CaptionLine) : List CaptionWord :=
  (lines.map (fun l => l.words)).flatten

/-- Sum of the word widths of a line, with no inter-word spacing. -/
def sumWidths (tbl : List (Char × ℚ)) (ws : List CaptionWord) : ℚ :=
  (ws.map (fun w => wordWidthOf tbl w.word)).sum

/-- The rendered phrase width computed by AddCaptionsToVideo (lines
1110-1115): the glyph widths of all characters of the uppercased words,
joined, plus one space width per gap between consecutive words.  The Python
gap count len(words) - 1 is taken in ℤ, as in the source. -/
def RequiredWidth (tbl : List (Char × ℚ)) (ws : List CaptionWord) : ℚ :=
  (((ws.map (fun w => w.word.toList.map Char.toUpper)).flatten).map (lookupWidth tbl)).sum
    + ((ws.length : ℤ) - 1) * lookupWidth tbl ' '

/-- The fallback width of FFMPEGHelper.GetCharactersWidth, line 982: six
tenths of the resolved font size, used for a printable character whose
measurement raises an exception. -/
def fallbackWidth (fontSize : ℚ) : ℚ :=
  fontSize * (6 / 10)

/-- The glyph-width table builder FFMPEGHelper.GetCharactersWidth (lines
944-991), after the font size has been resolved from the percentage string.
The PIL measurement draw.textbbox is the external collaborator measure,
returning none when it raises.  For every code point i from 32 to 126 the
uppercased character chr(i).upper() is measured and stored; on a measurement
failure the fixed fallback width is stored instead.  Duplicate keys (an
uppercase letter reached both from itself and from its lowercase form)
carry identical values, so first-match lookup agrees with the Python dict. -/
def GetCharactersWidth (fontSize : ℚ) (measure : Char → Option ℚ) :
    List (Char × ℚ) :=
  (List.range 95).map (fun k =>
    let c := (Char.ofNat (32 + k)).toUpper
    (c, (measure c).getD (fallbackWidth fontSize)))

/-- Python int() applied to a rational: truncation toward zero.  Used to
embed int(audioDuration / maxLengthPerVideo) on line 341 of
VideoCreatorHelper.py. -/
def pyInt (q : ℚ) : ℤ :=
  if q < 0 then ⌈q⌉ else ⌊q⌋

/-- Line 341 of GenerateVideo: the number of background videos needed to
cover the narration, int(audioDuration / maxLengthPerVideo) + 1. -/
def requiredNoOfVideos (audioDuration maxLengthPerVideo : ℚ) : ℤ :=
  pyInt (audioDuration / maxLengthPerVideo) + 1

/-- VideoCreatorHelper.GetCurrentVideosList (lines 87-114), parametrised by
its external collaborators: entries is the (already shuffled) directory
listing, exts the allowed extensions lowered, isFile the filesystem check
and dur the ffprobe duration.  A file is kept with its duration when its
lowercased name ends in an allowed extension, it is a regular file, and its
duration is at least the configured maximum length per video segment.
Directory-path joining is dropped: names stand for full paths. -/
def GetCurrentVideosList (entries : List String) (exts : List String)
    (isFile : String → Bool) (dur : String → ℚ) (maxLengthPerVideo : ℚ) :
    List (String × ℚ) :=
  (entries.filter (fun f => exts.any (fun e => f.toLower.endsWith e))).filterMap
    (fun f => if isFile f ∧ maxLengthPerVideo ≤ dur f then some (f, dur f) else none)

/-- Line 363 of GenerateVideo: the selected background clips are the first
requiredNoOfVideos entries of the (replenished) candidate list. -/
def selectVideos (available : List (String × ℚ)) (n : Nat) :
    List (String × ℚ) :=
  available.take n

/-- The replenishment while loop of GenerateVideo (lines 350-357), driven by
fuel.  While the required count exceeds the candidates at hand, the pool is
re-listed (each re-listing returns the same candidates, modelled by the
fixed list pool); an empty re-listing aborts with failure (GenerateVideo
returns False), otherwise the new candidates are appended and the loop
retries.  The result is the final candidate list (or none on failure)
together with the number of re-listings performed.  The fuel only has to
dominate the iteration count; ReplenishVideos passes required + 1, which
always suffices (lemma replenishLoop_fuel below). -/
def replenishLoop (pool : List (String × ℚ)) :
    Nat → Nat → List (String × ℚ) → Option (List (String × ℚ)) × Nat
  | 0, _, _ => (none, 0)
  | fuel + 1, required, available =>
    if required ≤ available.length then (some available, 0)
    else if pool.isEmpty then (none, 1)
    else
      let r := replenishLoop pool fuel required (available ++ pool)
      (r.1, r.2 + 1)

/-- The candidate replenishment of GenerateVideo, lines 345-357 (the branch
for a positive required count). -/
def ReplenishVideos (pool : List (String × ℚ)) (required : Nat)
    (available : List (String × ℚ)) : Option (List (String × ℚ)) × Nat :=
  replenishLoop pool (required + 1) required available

/-- The in-memory job map WebHelpers.JobStatusHistory: a Python dict from
job id to status string, embedded as an insertion-ordered association list.
Statuses are the literal strings used by the source ("queued",
"processing", "completed", "failed", "unknown"). -/
def Hist : Type :=
  List (String × String)

/-- JobStatusHistory.updateStatus (WebHelpers.py line 50-52): dict
assignment, replacing the value at an existing key in place and otherwise
appending the new pair, exactly the Python dict update semantics. -/
def histUpdate : Hist → String → String → Hist
  | [], id, st => [(id, st)]
  | p :: rest, id, st =>
    if p.1 == id then (id, st) :: rest else p :: histUpdate rest id st

/-- JobStatusHistory.get (line 40-41): first-occurrence association-list
lookup, the dict read. -/
def histLookup : Hist → String → Option String
  | [], _ => none
  | p :: rest, id => if p.1 == id then some p.2 else histLookup rest id

/-- JobStatusHistory.delete (lines 43-45): removal of the key, the Python
del. -/
def histDelete : Hist → String → Hist
  | [], _ => []
  | p :: rest, id => if p.1 == id then rest else p :: histDelete rest id

/-- The count taken at the top of QueueWatcher.run (lines 74-76): the number
of jobs whose status is the string "processing". -/
def countProcessing (h : Hist) : Nat :=
  (h.filter (fun p => p.2 == "processing")).length

/-- The admission choice of QueueWatcher.run (lines 86-90): the first job in
iteration order whose status is "queued". -/
def firstQueued (h : Hist) : Option String :=
  (h.find? (fun p => p.2 == "queued")).map (fun p => p.1)

/-- One atomic transition of the job-status map.  The constructors embed the
code paths that write JOB_HISTORY_OBJ: job submission (postJob, Server.py
line 314), admission of the first queued job by the watcher when the
processing count is below maxJobs (QueueWatcher.run lines 74-90 entering
ProcessJob, Server.py line 36), completion of a processing job with success
or failure (ProcessJob lines 75-92), deletion of a job
(deleteProcessedVideo line 472) and deletion of all jobs
(deleteAllProcessedVideos line 494).  The check-then-admit of the single
watcher thread is one atomic step; the pipeline run between admission and
completion is the gap between a startJob step and the matching finishJob
step, during which the job stays "processing". -/
inductive SchedStep (maxJobs : Nat) : Hist → Hist → Prop
  | submit (h : Hist) (id : String) :
      SchedStep maxJobs h (histUpdate h id "queued")
  | startJob (h : Hist) (id : String) :
      countProcessing h < maxJobs → firstQueued h = some id →
      SchedStep maxJobs h (histUpdate h id "processing")
  | finishJob (h : Hist) (id : String) (ok : Bool) :
      histLookup h id = some "processing" →
      SchedStep maxJobs h (histUpdate h id (if ok then "completed" else "failed"))
  | deleteJob (h : Hist) (id : String) :
      SchedStep maxJobs h (histDelete h id)
  | clearAll (h : Hist) :
      SchedStep maxJobs h []

/-- Reachability of a job-status map from an initial one by scheduler
steps. -/
def SchedReachable (maxJobs : Nat) (init s : Hist) : Prop :=
  Relation.ReflTransGen (SchedStep maxJobs) init s

/-- The decoded per-job JSON metadata record job.json, with the fields
written by postJob (Server.py lines 317-327).  speechRate is kept as the
raw JSON scalar text; videoQuality and videoType are nullable. -/
structure JobData where
  id : String
  status : String
  text : String
  speechRate : String
  language : String
  voice : String
  videoQuality : Option String
  videoType : Option String
  createdAt : String
deriving DecidableEq, Repr

/-- The store directory of per-job metadata files: an association from job
id to the decoded record of its job.json. -/
def Disk : Type :=
  List (String × JobData)

/-- Reading STORE_PATH/jobId/job.json: first-occurrence lookup, none when
the file does not exist (FileNotFoundError). -/
def diskLookup : Disk → String → Option JobData
  | [], _ => none
  | p :: rest, id => if p.1 == id then some p.2 else diskLookup rest id

/-- Rewriting an existing metadata file with a new record. -/
def diskReplace : Disk → String → JobData → Disk
  | [], _, _ => []
  | p :: rest, id, jd =>
    if p.1 == id then (id, jd) :: rest else p :: diskReplace rest id jd

/-- UpdateJobStatus (Server.py lines 97-117): read the job's metadata file,
returning unchanged when it does not exist; otherwise set the status key of
the decoded record and write the record back. -/
def UpdateJobStatus (disk : Disk) (jobId status : String) : Disk :=
  match diskLookup disk jobId with
  | none => disk
  | some jd => diskReplace disk jobId { jd with status := status }

/-- A sample metadata record, used by the concrete witnesses below. -/
def sampleJob : JobData :=
  { id := "j1", status := "processing", text := "hello",
    speechRate := "1.0", language := "en", voice := "v",
    videoQuality := none, videoType := none,
    createdAt := "2025-08-05 12:00:00" }

/-- One step of the startup recovery loop (Server.py lines 507-523) for one
job directory: load the metadata record and copy its status into the
in-memory map (line 513); when the file is missing record "unknown" (line
523); when the loaded status is "queued" or "processing", reset it to
"queued" both in memory (line 517) and on disk (line 518). -/
def recoverOne (mem : Hist) (disk : Disk) (jobId : String) : Hist × Disk :=
  match diskLookup disk jobId with
  | some jd =>
    let mem1 := histUpdate mem jobId jd.status
    let st := (histLookup mem1 jobId).getD "unknown"
    if st == "queued" || st == "processing" then
      (histUpdate mem1 jobId "queued", UpdateJobStatus disk jobId "queued")
    else
      (mem1, disk)
  | none => (histUpdate mem jobId "unknown", disk)

/-- The startup recovery loop over the listed job directories (Server.py
lines 504-523). -/
def recoverAll (mem : Hist) (disk : Disk) (jobsList : List String) :
    Hist × Disk :=
  jobsList.foldl (fun md id => recoverOne md.1 md.2 id) (mem, disk)

/-- The job-id computation shared by postJob (Server.py lines 300-302) and
PostJob (apiRoutes.py lines 136-137): the hex digest of the md5 hash of the
submitted text concatenated with the second-resolution creation timestamp.
The digest md5hex is the external hashlib collaborator, an arbitrary
deterministic function of its input bytes. -/
def mkJobId (md5hex : String → String) (text createdAt : String) : String :=
  md5hex (text ++ createdAt)

/-- Modelled from the spec: hashlib.md5 hexdigest is outside the repository;
the spec treats the id purely as a content-derived hash, so the digest is
modelled as an arbitrary deterministic function of its input, here the
identity, which is all the counterexample below uses (two equal inputs have
equal digests under every deterministic digest). -/
def md5Model : String → String :=
  fun s => s

/-- The ids issued to a sequence of submissions, each submission being the
pair of its text and its creation timestamp. -/
def postJobIds (md5hex : String → String)
    (submissions : List (String × String)) : List String :=
  submissions.map (fun s => mkJobId md5hex s.1 s.2)

/-! Helper lemmas about the packing loops. -/

theorem fitWords_cons (tbl : List (Char × ℚ)) (budget : ℚ) (w : CaptionWord)
    (ws : List CaptionWord) (cw lw : ℚ) :
    (budget < wordWidthOf tbl w.word ∧
      fitWords tbl budget (w :: ws) cw lw = ([], w :: ws, wordWidthOf tbl w.word)) ∨
    (¬ budget < wordWidthOf tbl w.word ∧ cw + wordWidthOf tbl w.word ≤ budget ∧
      fitWords tbl budget (w :: ws) cw lw =
        (w :: (fitWords tbl budget ws (cw + wordWidthOf tbl w.word)
            (wordWidthOf tbl w.word)).1,
          (fitWords tbl budget ws (cw + wordWidthOf tbl w.word)
            (wordWidthOf tbl w.word)).2.1,
          (fitWords tbl budget ws (cw + wordWidthOf tbl w.word)
            (wordWidthOf tbl w.word)).2.2)) ∨
    (¬ budget < wordWidthOf tbl w.word ∧ ¬ cw + wordWidthOf tbl w.word ≤ budget ∧
      fitWords tbl budget (w :: ws) cw lw = ([], w :: ws, wordWidthOf tbl w.word)) := by
  by_cases hov : budget < wordWidthOf tbl w.word
  · exact Or.inl ⟨hov, by simp [fitWords, hov]⟩
  · by_cases hfit : cw + wordWidthOf tbl w.word ≤ budget
    · exact Or.inr (Or.inl ⟨hov, hfit, by simp [fitWords, hov, hfit]⟩)
    · exact Or.inr (Or.inr ⟨hov, hfit, by simp [fitWords, hov, hfit]⟩)

theorem fitWords_append (tbl : List (Char × ℚ)) (budget : ℚ)
    (l : List CaptionWord) : ∀ cw lw : ℚ,
    (fitWords tbl budget l cw lw).1 ++ (fitWords tbl budget l cw lw).2.1 = l := by
  induction l with
  | nil => intro cw lw; rfl
  | cons w ws ih =>
    intro cw lw
    rcases fitWords_cons tbl budget w ws cw lw with
      ⟨-, heq⟩ | ⟨-, -, heq⟩ | ⟨-, -, heq⟩ <;> rw [heq]
    · rfl
    · simpa using ih (cw + wordWidthOf tbl w.word) (wordWidthOf tbl w.word)
    · rfl

theorem fitWords_taken_ne_nil (tbl : List (Char × ℚ)) (budget : ℚ)
    (w : CaptionWord) (ws : List CaptionWord) (lw : ℚ)
    (h : ¬ budget < (fitWords tbl budget (w :: ws) 0 lw).2.2) :
    (fitWords tbl budget (w :: ws) 0 lw).1 ≠ [] := by
  rcases fitWords_cons tbl budget w ws 0 lw with
    ⟨hov, heq⟩ | ⟨-, -, heq⟩ | ⟨hov, hfit, heq⟩
  · rw [heq] at h
    exact absurd hov h
  · rw [heq]
    simp
  · rw [heq] at h
    exact absurd (by simpa using le_of_not_lt h) hfit

theorem fitWords_oversized (tbl : List (Char × ℚ)) (budget : ℚ)
    (l : List CaptionWord) : ∀ cw lw : ℚ, l ≠ [] →
    budget < (fitWords tbl budget l cw lw).2.2 →
    ∃ o rest2, (fitWords tbl budget l cw lw).2.1 = o :: rest2 ∧
      wordWidthOf tbl o.word = (fitWords tbl budget l cw lw).2.2 := by
  induction l with
  | nil => intro cw lw hne; exact absurd rfl hne
  | cons w ws ih =>
    intro cw lw _ hov
    rcases fitWords_cons tbl budget w ws cw lw with
      ⟨-, heq⟩ | ⟨hwle, -, heq⟩ | ⟨hwle, -, heq⟩
    · rw [heq]
      exact ⟨w, ws, rfl, rfl⟩
    · rw [heq] at hov ⊢
      match ws with
      | [] => exact absurd (by simpa [fitWords] using hov) hwle
      | v :: vs =>
        exact ih (cw + wordWidthOf tbl w.word) (wordWidthOf tbl w.word)
          (by simp) (by simpa using hov)
    · rw [heq] at hov
      exact absurd (by simpa using hov) hwle

theorem sumWidths_nil (tbl : List (Char × ℚ)) : sumWidths tbl [] = 0 := rfl

theorem sumWidths_cons (tbl : List (Char × ℚ)) (w : CaptionWord)
    (ws : List CaptionWord) :
    sumWidths tbl (w :: ws) = wordWidthOf tbl w.word + sumWidths tbl ws := by
  simp [sumWidths]

theorem fitWords_sum_le (tbl : List (Char × ℚ)) (budget : ℚ)
    (l : List CaptionWord) : ∀ cw lw : ℚ, cw ≤ budget →
    cw + sumWidths tbl (fitWords tbl budget l cw lw).1 ≤ budget := by
  induction l with
  | nil => intro cw lw hcw; simpa [fitWords, sumWidths] using hcw
  | cons w ws ih =>
    intro cw lw hcw
    rcases fitWords_cons tbl budget w ws cw lw with
      ⟨-, heq⟩ | ⟨-, hfit, heq⟩ | ⟨-, -, heq⟩ <;> rw [heq]
    · simpa [sumWidths] using hcw
    · have := ih (cw + wordWidthOf tbl w.word) (wordWidthOf tbl w.word) hfit
      simpa [sumWidths_cons, add_assoc] using this
    · simpa [sumWidths] using hcw

theorem wordsOfLines_nil : wordsOfLines [] = [] := rfl

theorem wordsOfLines_cons (l : CaptionLine) (ls : List CaptionLine) :
    wordsOfLines (l :: ls) = l.words ++ wordsOfLines ls := by
  simp [wordsOfLines]

theorem packLoop_join (tbl : List (Char × ℚ)) (budget : ℚ) :
    ∀ (fuel : Nat) (l : List CaptionWord), l.length ≤ fuel →
    wordsOfLines (packLoop tbl budget fuel l) = l := by
  intro fuel
  induction fuel with
  | zero =>
    intro l hl
    obtain rfl : l = [] := List.length_eq_zero.mp (Nat.le_zero.mp hl)
    rfl
  | succ f ih =>
    intro l hl
    match l with
    | [] => rfl
    | w :: ws =>
      have hsplit := fitWords_append tbl budget (w :: ws) 0 0
      simp only [packLoop]
      by_cases hov : budget < (fitWords tbl budget (w :: ws) 0 0).2.2
      · obtain ⟨o, rest2, hrest, -⟩ :=
          fitWords_oversized tbl budget (w :: ws) 0 0 (by simp) hov
        rw [if_pos hov, hrest]
        have hlen : rest2.length ≤ f := by
          have := congrArg List.length hsplit
          rw [hrest] at this
          simp only [List.length_append, List.length_cons] at this hl
          omega
        rw [wordsOfLines_cons, wordsOfLines_cons, ih rest2 hlen]
        rw [hrest] at hsplit
        simpa using hsplit
      · rw [if_neg hov]
        have hne := fitWords_taken_ne_nil tbl budget w ws 0 hov
        have hlen : (fitWords tbl budget (w :: ws) 0 0).2.1.length ≤ f := by
          have := congrArg List.length hsplit
          simp only [List.length_append, List.length_cons] at this hl
          have hpos : 0 < (fitWords tbl budget (w :: ws) 0 0).1.length :=
            List.length_pos.mpr hne
          omega
        rw [wordsOfLines_cons, ih _ hlen]
        exact hsplit

theorem packLoop_line_bound (tbl : List (Char × ℚ)) (budget : ℚ)
    (hb : 0 ≤ budget) :
    ∀ (fuel : Nat) (l : List CaptionWord) (line : CaptionLine),
    line ∈ packLoop tbl budget fuel l →
    sumWidths tbl line.words ≤ budget ∨
      ∃ o, line.words = [o] ∧ budget < wordWidthOf tbl o.word := by
  intro fuel
  induction fuel with
  | zero => intro l line hmem; simp [packLoop] at hmem
  | succ f ih =>
    intro l line hmem
    match l with
    | [] => simp [packLoop] at hmem
    | w :: ws =>
      have hfirst : sumWidths tbl (fitWords tbl budget (w :: ws) 0 0).1 ≤ budget := by
        simpa using fitWords_sum_le tbl budget (w :: ws) 0 0 hb
      simp only [packLoop] at hmem
      by_cases hov : budget < (fitWords tbl budget (w :: ws) 0 0).2.2
      · rw [if_pos hov] at hmem
        obtain ⟨o, rest2, hrest, hw⟩ :=
          fitWords_oversized tbl budget (w :: ws) 0 0 (by simp) hov
        rw [hrest] at hmem
        simp only [List.mem_cons] at hmem
        rcases hmem with rfl | rfl | hmem
        · exact Or.inl hfirst
        · exact Or.inr ⟨o, rfl, hw ▸ hov⟩
        · exact ih rest2 line hmem
      · rw [if_neg hov] at hmem
        simp only [List.mem_cons] at hmem
        rcases hmem with rfl | hmem
        · exact Or.inl hfirst
        · exact ih _ line hmem

/-- Claim C1: caption packing covers all words.  For every input sequence of
word timings and every pixel budget that is at least the width of the widest
single word, the concatenation of the words of all produced caption lines,
in order, equals the input word sequence exactly, with no word lost,
duplicated, or reordered. -/
theorem packing_covers_all_words (tbl : List (Char × ℚ)) (budget : ℚ)
    (words : List CaptionWord)
    (hwide : ∀ w ∈ words, wordWidthOf tbl w.word ≤ budget) :
    wordsOfLines (PackCaptionWords tbl budget words) = words :=
  packLoop_join tbl budget words.length words le_rfl

/-- Witness for C1 at a concrete input: two words of width 3 each under
budget 6. -/
theorem packing_covers_all_words_witness :
    (∀ w ∈ ([⟨"A", 0, 1⟩, ⟨"A", 1, 2⟩] : List CaptionWord),
      wordWidthOf [('A', 3), (' ', 1)] w.word ≤ 6) ∧
    wordsOfLines (PackCaptionWords [('A', 3), (' ', 1)] 6 [⟨"A", 0, 1⟩, ⟨"A", 1, 2⟩]) =
      [⟨"A", 0, 1⟩, ⟨"A", 1, 2⟩] :=
  ⟨by norm_num +decide [wordWidthOf, lookupWidth],
    packing_covers_all_words [('A', 3), (' ', 1)] 6 [⟨"A", 0, 1⟩, ⟨"A", 1, 2⟩]
      (by norm_num +decide [wordWidthOf, lookupWidth])⟩

/-- Claim C2, counterexample.  The packer admits a word as long as the sum
of the bare word widths stays within the budget; it never adds the
inter-word space width.  With glyph widths A=3 and space=1 and budget 6, the
two words A and A are packed onto one line whose rendered width including
the space between them is 7, exceeding the budget, while neither word is a
single oversized word. -/
theorem packing_budget_counterexample :
    PackCaptionWords [('A', 3), (' ', 1)] 6 [⟨"A", 0, 1⟩, ⟨"A", 1, 2⟩] =
      [⟨"A A", [⟨"A", 0, 1⟩, ⟨"A", 1, 2⟩]⟩] ∧
    RequiredWidth [('A', 3), (' ', 1)] [⟨"A", 0, 1⟩, ⟨"A", 1, 2⟩] = 7 ∧
    ¬ RequiredWidth [('A', 3), (' ', 1)] [⟨"A", 0, 1⟩, ⟨"A", 1, 2⟩] ≤ 6 ∧
    ¬ (6 : ℚ) < wordWidthOf [('A', 3), (' ', 1)] "A" := by
  refine ⟨?_, ?_, ?_, ?_⟩ <;>
    norm_num +decide [PackCaptionWords, packLoop, fitWords, wordWidthOf,
      lookupWidth, lineText, RequiredWidth]

/-- Claim C2 as amended: for every produced caption line, the sum of the
widths of its words, with no inter-word spacing, is at most the pixel
budget, unless the line is a single word whose own width exceeds the
budget; the packing loop does not account for the width of the spaces
between words, so a line's rendered width including spaces may exceed the
budget. -/
theorem packing_respects_budget (tbl : List (Char × ℚ)) (budget : ℚ)
    (hb : 0 ≤ budget) (words : List CaptionWord) (line : CaptionLine)
    (hline : line ∈ PackCaptionWords tbl budget words) :
    sumWidths tbl line.words ≤ budget ∨
      ∃ o, line.words = [o] ∧ budget < wordWidthOf tbl o.word :=
  packLoop_line_bound tbl budget hb words.length words line hline

/-- Witness for the amended C2 at a concrete input: the single produced line
of the packing of two width-3 words under budget 6. -/
theorem packing_respects_budget_witness :
    sumWidths [('A', 3), (' ', 1)] [⟨"A", 0, 1⟩, ⟨"A", 1, 2⟩] ≤ 6 ∨
      ∃ o, ([⟨"A", 0, 1⟩, ⟨"A", 1, 2⟩] : List CaptionWord) = [o] ∧
        (6 : ℚ) < wordWidthOf [('A', 3), (' ', 1)] o.word :=
  packing_respects_budget [('A', 3), (' ', 1)] 6 (by norm_num)
    [⟨"A", 0, 1⟩, ⟨"A", 1, 2⟩] ⟨"A A", [⟨"A", 0, 1⟩, ⟨"A", 1, 2⟩]⟩
    (by norm_num +decide [PackCaptionWords, packLoop, fitWords, wordWidthOf,
      lookupWidth, lineText])

/-- Claim C9: empty caption line edge case.  A word of width 10 under budget
5 arrives while the current line is empty; the packer emits a caption line
with empty text and no words immediately before the oversized word's own
single-word line. -/
theorem packing_empty_line_edge_case :
    PackCaptionWords [('A', 10)] 5 [⟨"A", 0, 1⟩] =
      [⟨"", []⟩, ⟨"A", [⟨"A", 0, 1⟩]⟩] ∧
    5 < wordWidthOf [('A', 10)] "A" := by
  constructor <;>
    norm_num +decide [PackCaptionWords, packLoop, fitWords, wordWidthOf,
      lookupWidth, lineText]

/-! Helper lemmas about the glyph table, the segment count and the
replenishment loop. -/

theorem lookupWidth_cons (p : Char × ℚ) (rest : List (Char × ℚ)) (c : Char) :
    lookupWidth (p :: rest) c = if p.1 == c then p.2 else lookupWidth rest c := by
  by_cases h : p.1 == c <;> simp [lookupWidth, List.find?_cons, h]

theorem lookupWidth_map {α : Type} (li : List α) (key : α → Char)
    (val : Char → ℚ) (c : Char) :
    lookupWidth (li.map (fun i => (key i, val (key i)))) c =
      if c ∈ li.map key then val c else 0 := by
  induction li with
  | nil => simp [lookupWidth]
  | cons a as ih =>
    by_cases h : key a = c
    · subst h
      simp [lookupWidth_cons]
    · simp only [List.map_cons, lookupWidth_cons]
      rw [if_neg (by simpa using h), ih]
      simp [Ne.symm h]

theorem GetCharactersWidth_keys (fontSize : ℚ) (measure : Char → Option ℚ) :
    (GetCharactersWidth fontSize measure).map Prod.fst =
      (List.range 95).map (fun k => (Char.ofNat (32 + k)).toUpper) := by
  simp [GetCharactersWidth, List.map_map, Function.comp]

theorem GetCharactersWidth_lookup (fontSize : ℚ) (measure : Char → Option ℚ)
    (c : Char) :
    lookupWidth (GetCharactersWidth fontSize measure) c =
      if c ∈ (GetCharactersWidth fontSize measure).map Prod.fst then
        (measure c).getD (fallbackWidth fontSize)
      else 0 := by
  rw [GetCharactersWidth_keys]
  exact lookupWidth_map (List.range 95) (fun k => (Char.ofNat (32 + k)).toUpper)
    (fun c => (measure c).getD (fallbackWidth fontSize)) c

theorem replenishLoop_some (pool : List (String × ℚ)) :
    ∀ (fuel required : Nat) (available res : List (String × ℚ)),
    (replenishLoop pool fuel required available).1 = some res →
    required ≤ res.length := by
  intro fuel
  induction fuel with
  | zero => intro required available res h; simp [replenishLoop] at h
  | succ f ih =>
    intro required available res h
    simp only [replenishLoop] at h
    split at h
    · next hle => cases h; exact hle
    · split at h
      · simp at h
      · exact ih required (available ++ pool) res h

theorem replenishLoop_fuel (pool : List (String × ℚ)) (hpool : pool ≠ []) :
    ∀ (fuel required : Nat) (available : List (String × ℚ)),
    required - available.length < fuel →
    ∃ res k, replenishLoop pool fuel required available = (some res, k) := by
  intro fuel
  induction fuel with
  | zero => intro required available h; omega
  | succ f ih =>
    intro required available h
    by_cases hle : required ≤ available.length
    · exact ⟨available, 0, by simp [replenishLoop, hle]⟩
    · have hne : pool.isEmpty = false := by
        simpa [List.isEmpty_iff] using hpool
      have hlen : 0 < pool.length := List.length_pos.mpr hpool
      obtain ⟨res, k, hres⟩ := ih required (available ++ pool)
        (by simp only [List.length_append]; omega)
      exact ⟨res, k + 1, by simp [replenishLoop, hle, hne, hres]⟩

/-- Claim C5: segment coverage.  For a positive narration duration and a
positive maximum per-segment length, selecting
requiredNoOfVideos = int(duration / maxLengthPerVideo) + 1 candidates (given
that many are available after replenishment) yields a selection whose count
times the per-segment length is at least the duration; moreover every
candidate returned by GetCurrentVideosList lasts at least the per-segment
length. -/
theorem segment_coverage (audioDuration maxLengthPerVideo : ℚ)
    (hd : 0 < audioDuration) (hm : 0 < maxLengthPerVideo)
    (available : List (String × ℚ))
    (hava : (requiredNoOfVideos audioDuration maxLengthPerVideo).toNat ≤
      available.length) :
    audioDuration ≤
      ((selectVideos available
        (requiredNoOfVideos audioDuration maxLengthPerVideo).toNat).length : ℚ) *
        maxLengthPerVideo ∧
    ∀ (entries exts : List String) (isFile : String → Bool)
      (dur : String → ℚ),
      ∀ c ∈ GetCurrentVideosList entries exts isFile dur maxLengthPerVideo,
        maxLengthPerVideo ≤ c.2 := by
  constructor
  · have hq : 0 < audioDuration / maxLengthPerVideo := div_pos hd hm
    have hreq : requiredNoOfVideos audioDuration maxLengthPerVideo =
        ⌊audioDuration / maxLengthPerVideo⌋ + 1 := by
      simp [requiredNoOfVideos, pyInt, not_lt_of_lt hq, le_of_lt hq]
    have hfl : (0 : ℤ) ≤ ⌊audioDuration / maxLengthPerVideo⌋ :=
      Int.floor_nonneg.mpr (le_of_lt hq)
    have hlen : ((selectVideos available
        (requiredNoOfVideos audioDuration maxLengthPerVideo).toNat).length : ℚ) =
        ((⌊audioDuration / maxLengthPerVideo⌋ : ℚ) + 1) := by
      have : (requiredNoOfVideos audioDuration maxLengthPerVideo).toNat =
          (⌊audioDuration / maxLengthPerVideo⌋ + 1).toNat := by rw [hreq]
      rw [selectVideos, List.length_take, min_eq_left hava, this]
      exact_mod_cast Int.toNat_of_nonneg
        (by omega : (0:ℤ) ≤ ⌊audioDuration / maxLengthPerVideo⌋ + 1)
    rw [hlen]
    have hlt : audioDuration / maxLengthPerVideo <
        (⌊audioDuration / maxLengthPerVideo⌋ : ℚ) + 1 :=
      Int.lt_floor_add_one _
    calc audioDuration = audioDuration / maxLengthPerVideo * maxLengthPerVideo := by
          field_simp
      _ ≤ ((⌊audioDuration / maxLengthPerVideo⌋ : ℚ) + 1) * maxLengthPerVideo :=
          mul_le_mul_of_nonneg_right (le_of_lt hlt) (le_of_lt hm)
  · intro entries exts isFile dur c hc
    simp only [GetCurrentVideosList, List.mem_filterMap] at hc
    obtain ⟨f, -, hf⟩ := hc
    split at hf
    · next hcond =>
      cases hf
      exact hcond.2
    · simp at hf

/-- Witness for C5 at a concrete input: duration 7, per-segment length 5,
two available candidates. -/
theorem segment_coverage_witness :
    (7 : ℚ) ≤ ((selectVideos [("v1", 5), ("v2", 6)]
      (requiredNoOfVideos 7 5).toNat).length : ℚ) * 5 := by
  refine (segment_coverage 7 5 (by norm_num) (by norm_num)
    [("v1", 5), ("v2", 6)] ?_).1
  have h1 : ⌊(7 : ℚ) / 5⌋ = 1 := by
    rw [Int.floor_eq_iff]
    norm_num
  have : requiredNoOfVideos 7 5 = 2 := by
    simp [requiredNoOfVideos, pyInt, h1]
    norm_num
  rw [this]
  norm_num

/-- Claim C7, counterexample.  With a one-candidate pool, one candidate at
hand and three required, the replenishment loop re-lists twice and then
succeeds: after the first re-listing the candidates are still insufficient
(two of three), yet the pipeline does not fail and re-lists again. -/
theorem replenish_counterexample :
    ReplenishVideos [("v", 5)] 3 [("v", 5)] =
      (some [("v", 5), ("v", 5), ("v", 5)], 2) ∧
    ([("v", 5), ("v", 5)] : List (String × ℚ)).length < 3 := by
  exact ⟨rfl, by norm_num⟩

/-- Claim C7 as amended: when the listed candidates are insufficient, the
pipeline re-lists the candidate pool repeatedly, as often as needed, and
terminates the job as failed exactly when a re-listing returns no
candidates while the candidates at hand are still insufficient; any
successful outcome carries at least the required number of candidates. -/
theorem replenish_failure_iff (pool : List (String × ℚ)) (required : Nat)
    (available : List (String × ℚ)) :
    ((ReplenishVideos pool required available).1 = none ↔
      pool = [] ∧ available.length < required) ∧
    ∀ res, (ReplenishVideos pool required available).1 = some res →
      required ≤ res.length := by
  constructor
  · constructor
    · intro hnone
      by_cases hpool : pool = []
      · refine ⟨hpool, ?_⟩
        by_contra hlen
        have hle : required ≤ available.length := by omega
        simp [ReplenishVideos, replenishLoop, hle] at hnone
      · obtain ⟨res, k, hres⟩ := replenishLoop_fuel pool hpool (required + 1)
          required available (by omega)
        rw [ReplenishVideos, hres] at hnone
        simp at hnone
    · rintro ⟨rfl, hlen⟩
      have hle : ¬ required ≤ available.length := by omega
      simp [ReplenishVideos, replenishLoop, hle]
  · intro res hres
    exact replenishLoop_some pool (required + 1) required available res hres

/-- Witness for the amended C7 at a concrete input: an empty pool with no
candidates at hand and two required results in failure. -/
theorem replenish_failure_iff_witness :
    (ReplenishVideos ([] : List (String × ℚ)) 2 []).1 = none :=
  ((replenish_failure_iff [] 2 []).1).mpr ⟨rfl, by norm_num⟩

/-- Claim C6, counterexample.  In the width measurement used by the packer,
a character absent from the glyph table contributes zero to the word width,
not the fixed fraction of the font size: with font size 10 and a measurement
that reports width 1 for every printable character, the word whose single
character is the non-ASCII letter É measures 0, while the fallback fraction
is 6 and the present letter A measures 1. -/
theorem glyph_missing_counterexample :
    wordWidthOf (GetCharactersWidth 10 (fun _ => some 1)) "É" = 0 ∧
    fallbackWidth 10 = 6 ∧
    wordWidthOf (GetCharactersWidth 10 (fun _ => some 1)) "É" ≠ fallbackWidth 10 ∧
    lookupWidth (GetCharactersWidth 10 (fun _ => some 1)) 'A' = 1 := by
  have hkeys := GetCharactersWidth_keys 10 (fun _ => some 1)
  have hmiss : lookupWidth (GetCharactersWidth 10 (fun _ => some 1)) 'É' = 0 := by
    rw [GetCharactersWidth_lookup, hkeys, if_neg (by decide)]
  have hA : lookupWidth (GetCharactersWidth 10 (fun _ => some 1)) 'A' = 1 := by
    rw [GetCharactersWidth_lookup, hkeys, if_pos (by decide)]
    rfl
  have htl : ("É").toList = ['É'] := rfl
  have hup : ('É').toUpper = 'É' := rfl
  have hword : wordWidthOf (GetCharactersWidth 10 (fun _ => some 1)) "É" = 0 := by
    simp [wordWidthOf, htl, hup, hmiss]
  have hfb : fallbackWidth 10 = 6 := by norm_num [fallbackWidth]
  exact ⟨hword, hfb, by rw [hword, hfb]; norm_num, hA⟩

/-- Claim C6 as amended: when measuring a word's width for caption layout,
each character is looked up case-insensitively (the character is uppercased
first); a character present in the glyph table contributes its measured
width, or the fixed fraction 0.6 of the font size when its measurement
failed, while a character with no entry in the table contributes zero. -/
theorem glyph_lookup_behaviour (fontSize : ℚ) (measure : Char → Option ℚ)
    (w : String) :
    wordWidthOf (GetCharactersWidth fontSize measure) w =
      (w.toList.map (fun c =>
        if c.toUpper ∈ (GetCharactersWidth fontSize measure).map Prod.fst then
          (measure c.toUpper).getD (fallbackWidth fontSize)
        else 0)).sum := by
  unfold wordWidthOf
  congr 1
  apply List.map_congr_left
  intro c _
  exact GetCharactersWidth_lookup fontSize measure c.toUpper

/-! Helper lemmas about the job-status map, the metadata store and the
startup recovery. -/

theorem countProcessing_nil : countProcessing [] = 0 := rfl

theorem countProcessing_cons (p : String × String) (rest : Hist) :
    countProcessing (p :: rest) =
      (if p.2 == "processing" then 1 else 0) + countProcessing rest := by
  by_cases h : p.2 == "processing" <;>
    simp [countProcessing, List.filter_cons, h] <;> omega

theorem countProcessing_histUpdate_le (h : Hist) (id st : String) :
    countProcessing (histUpdate h id st) ≤
      countProcessing h + (if st == "processing" then 1 else 0) := by
  induction h with
  | nil =>
    show countProcessing [(id, st)] ≤
      countProcessing [] + (if st == "processing" then 1 else 0)
    rw [countProcessing_cons]
    show (if st == "processing" then 1 else 0) + countProcessing [] ≤
      countProcessing [] + (if st == "processing" then 1 else 0)
    omega
  | cons p rest ih =>
    by_cases hp : p.1 == id
    · rw [show histUpdate (p :: rest) id st = (id, st) :: rest from by
        simp [histUpdate, hp]]
      rw [countProcessing_cons, countProcessing_cons]
      show (if st == "processing" then 1 else 0) + countProcessing rest ≤
        (if p.2 == "processing" then 1 else 0) + countProcessing rest +
          (if st == "processing" then 1 else 0)
      omega
    · rw [show histUpdate (p :: rest) id st = p :: histUpdate rest id st from by
        simp [histUpdate, hp]]
      rw [countProcessing_cons, countProcessing_cons]
      omega

theorem countProcessing_histDelete_le (h : Hist) (id : String) :
    countProcessing (histDelete h id) ≤ countProcessing h := by
  induction h with
  | nil => simp [histDelete]
  | cons p rest ih =>
    by_cases hp : p.1 == id
    · rw [show histDelete (p :: rest) id = rest from by simp [histDelete, hp],
        countProcessing_cons]
      omega
    · rw [show histDelete (p :: rest) id = p :: histDelete rest id from by
        simp [histDelete, hp]]
      rw [countProcessing_cons, countProcessing_cons]
      omega

theorem schedStep_count_le (maxJobs : Nat) (h h' : Hist)
    (step : SchedStep maxJobs h h') (hinv : countProcessing h ≤ maxJobs) :
    countProcessing h' ≤ maxJobs := by
  cases step with
  | submit id =>
    have := countProcessing_histUpdate_le h id "queued"
    simp only [show (("queued" : String) == "processing") = false from rfl,
      Bool.false_eq_true, if_false] at this
    omega
  | startJob id hcount hfq =>
    have := countProcessing_histUpdate_le h id "processing"
    simp only [show (("processing" : String) == "processing") = true from rfl,
      if_true] at this
    omega
  | finishJob id ok hst =>
    cases ok with
    | true =>
      have := countProcessing_histUpdate_le h id "completed"
      simp only [show (("completed" : String) == "processing") = false from rfl,
        Bool.false_eq_true, if_false] at this
      simpa using Nat.le_trans (by simpa using this) hinv
    | false =>
      have := countProcessing_histUpdate_le h id "failed"
      simp only [show (("failed" : String) == "processing") = false from rfl,
        Bool.false_eq_true, if_false] at this
      simpa using Nat.le_trans (by simpa using this) hinv
  | deleteJob id =>
    have := countProcessing_histDelete_le h id
    omega
  | clearAll =>
    simp [countProcessing_nil]

/-- Claim C3: concurrency ceiling.  Starting from any job map in which at
most maxJobs jobs are processing (in particular the map rebuilt at startup,
where none are), every job map reachable by submissions, admissions,
completions, deletions and clears has at most maxJobs jobs whose status is
the string "processing": the watcher admits a queued job only after counting
the processing jobs below maxJobs, every other step only removes or
overwrites processing entries. -/
theorem concurrency_ceiling (maxJobs : Nat) (init s : Hist)
    (hreach : SchedReachable maxJobs init s)
    (hinit : countProcessing init ≤ maxJobs) :
    countProcessing s ≤ maxJobs := by
  induction hreach with
  | refl => exact hinit
  | tail _ step ih => exact schedStep_count_le maxJobs _ _ step ih

/-- Witness for C3 at a concrete input: from the empty map, submit job j1
and admit it; the reached map has one processing job, within ceiling 1. -/
theorem concurrency_ceiling_witness :
    countProcessing [("j1", "processing")] ≤ 1 := by
  refine concurrency_ceiling 1 [] [("j1", "processing")] ?_ (by decide)
  refine Relation.ReflTransGen.tail
    (Relation.ReflTransGen.tail Relation.ReflTransGen.refl
      (SchedStep.submit [] "j1")) ?_
  exact SchedStep.startJob [("j1", "queued")] "j1" (by decide) (by decide)

theorem histLookup_histUpdate_self (h : Hist) (id st : String) :
    histLookup (histUpdate h id st) id = some st := by
  induction h with
  | nil => simp [histUpdate, histLookup]
  | cons p rest ih =>
    by_cases hp : p.1 == id
    · simp [histUpdate, histLookup, hp]
    · simp [histUpdate, histLookup, hp, ih]

theorem histLookup_histUpdate_other (h : Hist) (id id2 st : String)
    (hne : id2 ≠ id) :
    histLookup (histUpdate h id st) id2 = histLookup h id2 := by
  induction h with
  | nil => simp [histUpdate, histLookup, beq_iff_eq, Ne.symm hne]
  | cons p rest ih =>
    by_cases hp : p.1 == id
    · have hp2 : (p.1 == id2) = false := by
        have : p.1 = id := by simpa [beq_iff_eq] using hp
        simp [beq_iff_eq, this, Ne.symm hne]
      simp [histUpdate, histLookup, hp, hp2, beq_iff_eq, Ne.symm hne]
    · simp [histUpdate, histLookup, hp, ih]

theorem diskLookup_diskReplace_self (disk : Disk) (id : String)
    (jd jd0 : JobData) (hmem : diskLookup disk id = some jd0) :
    diskLookup (diskReplace disk id jd) id = some jd := by
  induction disk with
  | nil => simp [diskLookup] at hmem
  | cons p rest ih =>
    by_cases hp : p.1 == id
    · simp [diskReplace, diskLookup, hp]
    · simp only [diskLookup, hp, Bool.false_eq_true, if_neg,
        not_false_iff] at hmem
      simp [diskReplace, diskLookup, hp, ih hmem]

theorem diskLookup_diskReplace_other (disk : Disk) (id id2 : String)
    (jd : JobData) (hne : id2 ≠ id) :
    diskLookup (diskReplace disk id jd) id2 = diskLookup disk id2 := by
  induction disk with
  | nil => simp [diskReplace, diskLookup]
  | cons p rest ih =>
    by_cases hp : p.1 == id
    · have hp2 : (p.1 == id2) = false := by
        have : p.1 = id := by simpa [beq_iff_eq] using hp
        simp [beq_iff_eq, this, Ne.symm hne]
      simp [diskReplace, diskLookup, hp, hp2, beq_iff_eq, Ne.symm hne]
    · simp [diskReplace, diskLookup, hp, ih]

theorem UpdateJobStatus_missing (disk : Disk) (jobId status : String)
    (h : diskLookup disk jobId = none) :
    UpdateJobStatus disk jobId status = disk := by
  simp [UpdateJobStatus, h]

theorem UpdateJobStatus_found (disk : Disk) (jobId status : String)
    (jd : JobData) (h : diskLookup disk jobId = some jd) :
    diskLookup (UpdateJobStatus disk jobId status) jobId =
      some { jd with status := status } := by
  rw [UpdateJobStatus, h]
  exact diskLookup_diskReplace_self disk jobId _ jd h

theorem UpdateJobStatus_other (disk : Disk) (jobId status other : String)
    (hne : other ≠ jobId) :
    diskLookup (UpdateJobStatus disk jobId status) other =
      diskLookup disk other := by
  rw [UpdateJobStatus]
  cases hl : diskLookup disk jobId with
  | none => rfl
  | some jd => exact diskLookup_diskReplace_other disk jobId other _ hne

/-- Claim C10: status-update frame property.  UpdateJobStatus leaves the
store unchanged when the job's metadata file does not exist; when it does,
the rewritten record carries the new status and every other field (id,
text, language, voice, speechRate, videoQuality, videoType, createdAt)
unchanged, and the records of all other jobs are untouched. -/
theorem update_job_status_frame (disk : Disk) (jobId status : String) :
    (diskLookup disk jobId = none → UpdateJobStatus disk jobId status = disk) ∧
    (∀ jd, diskLookup disk jobId = some jd →
      diskLookup (UpdateJobStatus disk jobId status) jobId = some
        { id := jd.id, status := status, text := jd.text,
          speechRate := jd.speechRate, language := jd.language,
          voice := jd.voice, videoQuality := jd.videoQuality,
          videoType := jd.videoType, createdAt := jd.createdAt }) ∧
    (∀ other, other ≠ jobId →
      diskLookup (UpdateJobStatus disk jobId status) other =
        diskLookup disk other) := by
  refine ⟨UpdateJobStatus_missing disk jobId status, ?_,
    fun other hne => UpdateJobStatus_other disk jobId status other hne⟩
  intro jd h
  exact UpdateJobStatus_found disk jobId status jd h

/-- Witness for C10 at a concrete input: a one-record store gets only its
status rewritten, and an update of an absent job changes nothing. -/
theorem update_job_status_frame_witness :
    UpdateJobStatus [] "j1" "failed" = [] ∧
    diskLookup (UpdateJobStatus [("j1", sampleJob)] "j1" "failed") "j1" = some
      { id := sampleJob.id, status := "failed", text := sampleJob.text,
        speechRate := sampleJob.speechRate, language := sampleJob.language,
        voice := sampleJob.voice, videoQuality := sampleJob.videoQuality,
        videoType := sampleJob.videoType,
        createdAt := sampleJob.createdAt } := by
  constructor
  · exact (update_job_status_frame [] "j1" "failed").1 rfl
  · exact (update_job_status_frame [("j1", sampleJob)] "j1" "failed").2.1
      sampleJob (by decide)

theorem recoverOne_requeues (mem : Hist) (disk : Disk) (jobId : String)
    (jd : JobData) (hdisk : diskLookup disk jobId = some jd)
    (hst : jd.status = "processing" ∨ jd.status = "queued") :
    histLookup (recoverOne mem disk jobId).1 jobId = some "queued" ∧
    ∃ jd2, diskLookup (recoverOne mem disk jobId).2 jobId = some jd2 ∧
      jd2.status = "queued" := by
  have hself := histLookup_histUpdate_self mem jobId jd.status
  have hcond : (((histLookup (histUpdate mem jobId jd.status) jobId).getD
      "unknown" == "queued") ||
      ((histLookup (histUpdate mem jobId jd.status) jobId).getD
        "unknown" == "processing")) = true := by
    rw [hself]
    rcases hst with h | h <;> simp [Option.getD, h]
  unfold recoverOne
  rw [hdisk]
  simp only [hcond, if_true]
  exact ⟨histLookup_histUpdate_self _ jobId "queued",
    { jd with status := "queued" },
    UpdateJobStatus_found disk jobId "queued" jd hdisk, rfl⟩

theorem recoverOne_mem_other (mem : Hist) (disk : Disk) (id2 jobId : String)
    (hne : jobId ≠ id2) :
    histLookup (recoverOne mem disk id2).1 jobId = histLookup mem jobId := by
  unfold recoverOne
  cases hdl : diskLookup disk id2 with
  | none => exact histLookup_histUpdate_other mem id2 jobId "unknown" hne
  | some jd =>
    simp only
    split
    · rw [histLookup_histUpdate_other _ id2 jobId "queued" hne,
        histLookup_histUpdate_other mem id2 jobId jd.status hne]
    · exact histLookup_histUpdate_other mem id2 jobId jd.status hne

theorem recoverOne_disk_other (mem : Hist) (disk : Disk) (id2 jobId : String)
    (hne : jobId ≠ id2) :
    diskLookup (recoverOne mem disk id2).2 jobId = diskLookup disk jobId := by
  unfold recoverOne
  cases hdl : diskLookup disk id2 with
  | none => rfl
  | some jd =>
    simp only
    split
    · exact UpdateJobStatus_other disk id2 "queued" jobId hne
    · rfl

theorem recoverFold_preserves (jobId : String) (ids : List String) :
    ∀ md : Hist × Disk,
    (histLookup md.1 jobId = some "queued" ∧
      ∃ jd2, diskLookup md.2 jobId = some jd2 ∧ jd2.status = "queued") →
    (histLookup (ids.foldl (fun md id => recoverOne md.1 md.2 id) md).1
        jobId = some "queued" ∧
      ∃ jd2, diskLookup (ids.foldl (fun md id => recoverOne md.1 md.2 id) md).2
        jobId = some jd2 ∧ jd2.status = "queued") := by
  induction ids with
  | nil => intro md h; exact h
  | cons a as ih =>
    intro md h
    rw [List.foldl_cons]
    apply ih
    by_cases ha : a = jobId
    · subst ha
      obtain ⟨-, jd2, hdl, hq⟩ := h
      exact recoverOne_requeues md.1 md.2 a jd2 hdl (Or.inr hq)
    · obtain ⟨h1, h2⟩ := h
      have hne : jobId ≠ a := fun hh => ha hh.symm
      exact ⟨by rw [recoverOne_mem_other md.1 md.2 a jobId hne]; exact h1,
        by rw [recoverOne_disk_other md.1 md.2 a jobId hne]; exact h2⟩

/-- Claim C4: crash recovery never drops a job.  For every job listed at
startup whose on-disk metadata records status "processing" or "queued", the
recovery loop leaves it with status "queued" both in the rebuilt in-memory
map and on disk; in particular a job forcibly set to "processing" before a
restart ends up "queued", not "completed" and not lost. -/
theorem crash_recovery_requeues (mem : Hist) (disk : Disk)
    (jobsList : List String) (jobId : String) (jd : JobData)
    (hmem : jobId ∈ jobsList) (hdisk : diskLookup disk jobId = some jd)
    (hst : jd.status = "processing" ∨ jd.status = "queued") :
    histLookup (recoverAll mem disk jobsList).1 jobId = some "queued" ∧
    ∃ jd2, diskLookup (recoverAll mem disk jobsList).2 jobId = some jd2 ∧
      jd2.status = "queued" := by
  induction jobsList generalizing mem disk with
  | nil => cases hmem
  | cons a as ih =>
    rw [recoverAll, List.foldl_cons]
    by_cases ha : a = jobId
    · subst ha
      exact recoverFold_preserves a as (recoverOne mem disk a)
        (recoverOne_requeues mem disk a jd hdisk hst)
    · rcases List.mem_cons.mp hmem with h | h
      · exact absurd h.symm ha
      · have hne : jobId ≠ a := fun hh => ha hh.symm
        have hdisk2 : diskLookup (recoverOne mem disk a).2 jobId = some jd := by
          rw [recoverOne_disk_other mem disk a jobId hne]
          exact hdisk
        exact ih (recoverOne mem disk a).1 (recoverOne mem disk a).2 h hdisk2

/-- Witness for C4 at a concrete input: one job directory whose record is
"processing" before the restart. -/
theorem crash_recovery_requeues_witness :
    histLookup (recoverAll [] [("j1", sampleJob)] ["j1"]).1 "j1" =
      some "queued" ∧
    ∃ jd2, diskLookup (recoverAll [] [("j1", sampleJob)] ["j1"]).2 "j1" =
      some jd2 ∧ jd2.status = "queued" :=
  crash_recovery_requeues [] [("j1", sampleJob)] ["j1"] "j1" sampleJob
    (by simp) (by decide) (Or.inl rfl)

/-- Claim C8, counterexample.  The job id is the md5 digest of the text
concatenated with the second-resolution creation timestamp, so two
submissions of the same text created within the same second receive the
same id, whatever deterministic digest is used: the issued id list has a
duplicate. -/
theorem job_id_counterexample :
    ¬ (postJobIds md5Model
        [("Welcome", "2025-08-05 12:00:00"),
         ("Welcome", "2025-08-05 12:00:00")]).Nodup := by
  decide

/-- Claim C8 as amended: the job id is a content-derived hash of the
submitted text plus the creation timestamp; two resubmissions of the same
text receive distinct ids provided their second-resolution creation
timestamps differ and the digest is injective on the inputs, while two
submissions of the same text within the same second receive the same id. -/
theorem job_id_distinct_timestamps (md5hex : String → String)
    (hinj : Function.Injective md5hex) (text t1 t2 : String)
    (hne : t1 ≠ t2) :
    mkJobId md5hex text t1 ≠ mkJobId md5hex text t2 := by
  intro h
  apply hne
  have happ : text ++ t1 = text ++ t2 := hinj h
  have hdata := congrArg String.data happ
  simp only [String.data_append] at hdata
  exact String.ext (List.append_cancel_left hdata)

/-- Witness for the amended C8 at a concrete input: the identity digest is
injective, and one-second-apart timestamps give distinct ids. -/
theorem job_id_distinct_timestamps_witness :
    mkJobId md5Model "Welcome" "2025-08-05 12:00:00" ≠
      mkJobId md5Model "Welcome" "2025-08-05 12:00:01" :=
  job_id_distinct_timestamps md5Model (fun _ _ h => h) "Welcome"
    "2025-08-05 12:00:00" "2025-08-05 12:00:01" (by decide)

end VideoSuite
